import Mathlib

/-!
Verification of the shortest-path ring-statistics core of matscipy
(`src/c/ring_statistics.h` exports `py_distances_on_graph`,
`py_find_sp_rings`, `py_enum_sp_rings`).  The C implementation file is not
part of the source tree made available here — only the header with the three
exported entry points — so every operation below is modelled from the
specification's own words (§3–§7 of the design document) and marked as such.
-/

namespace RingStat

/-- Modelled from the spec: the `BondGraph` data structure of §3/§4.1 (its C
implementation is missing; only the header `ring_statistics.h` is present).
A graph on nodes `0 .. adj.length - 1`, represented by per-node ordered
neighbour lists. -/
structure BondGraph where
  adj : List (List Nat)
deriving DecidableEq

/-- Number of nodes of the graph. -/
def node_count (g : BondGraph) : Nat := g.adj.length

/-- Neighbour list of a node (empty for an out-of-range node index). -/
def neighbors (g : BondGraph) (u : Nat) : List Nat := g.adj.getD u []

/-- Edge test: `v` occurs in the neighbour list of `u`. -/
def hasEdge (g : BondGraph) (u v : Nat) : Bool := decide (v ∈ neighbors g u)

/-- Modelled from the spec: the BondGraph invariants of §3 ("undirected …
no self-loops … neighbour lists contain no duplicate entries"), as an
executable check: every neighbour entry is in range, distinct from its owner
and matched by a reverse entry, and each neighbour list is duplicate-free. -/
def validB (g : BondGraph) : Bool :=
  (List.range (node_count g)).all fun u =>
    decide (neighbors g u).Nodup &&
      (neighbors g u).all fun v =>
        decide (v < node_count g) && decide (v ≠ u) && hasEdge g v u

/-! ### Distance oracle (§4.2)

BFS is modelled by the ball of radius `n` around a root: the list of nodes
reachable by a walk of at most `n` edges. -/

/-- One BFS ply: the current node set together with all its neighbours. -/
def stepBall (g : BondGraph) (s : List Nat) : List Nat :=
  (s ++ s.flatMap (neighbors g)).dedup

/-- Modelled from the spec: the frontier-growing breadth-first traversal of
§4.2 (`distances_from`), whose implementation is missing.  `ball g u n` is
the set of nodes at hop distance at most `n` from `u`. -/
def ball (g : BondGraph) (u : Nat) : Nat → List Nat
  | 0 => [u]
  | n + 1 => stepBall g (ball g u n)

/-- `Reaches g u n v`: there is a walk of at most `n` edges from `u` to `v`. -/
def Reaches (g : BondGraph) (u : Nat) : Nat → Nat → Prop
  | 0, v => v = u
  | n + 1, v => Reaches g u n v ∨ ∃ w, Reaches g u n w ∧ hasEdge g w v = true

/-- Least index at most `n` at which the boolean predicate holds. -/
def firstLe (p : Nat → Bool) : Nat → Option Nat
  | 0 => if p 0 then some 0 else none
  | n + 1 =>
    match firstLe p n with
    | some d => some d
    | none => if p (n + 1) then some (n + 1) else none

/-- Modelled from the spec: the exported entry point `py_distances_on_graph`
(§6, `distances_on_graph(graph, max_distance) -> distance table`), whose C
implementation is missing.  The table is the function sending a node pair
`(u, v)` to the least hop count `d ≤ max_distance` with `v` in the radius-`d`
BFS ball around `u`, or `none` ("Unreachable") when there is no such `d`. -/
def distances_on_graph (g : BondGraph) (max_distance : Nat) (u v : Nat) :
    Option Nat :=
  firstLe (fun i => decide (v ∈ ball g u i)) max_distance

/-! ### Rings (§3) -/

/-- Cyclic adjacency: each node of the sequence is bonded to its successor,
the last one back to the first. -/
def ringAdjB (g : BondGraph) (r : List Nat) : Bool :=
  (List.range r.length).all fun i =>
    hasEdge g (r.getD i 0) (r.getD ((i + 1) % r.length) 0)

/-- Modelled from the spec: a Ring (§3), "a closed path of length ≥ 3
visiting distinct nodes", as an executable check on a node sequence. -/
def isRingB (g : BondGraph) (r : List Nat) : Bool :=
  decide (3 ≤ r.length) && decide r.Nodup && ringAdjB g r

/-- Number of edges of the arc running forward (in sequence direction) from
position `i` to position `j` on a ring of size `k`. -/
def arcLen (k i j : Nat) : Nat :=
  (((j : Int) - (i : Int)) % (k : Int)).toNat

/-- Length of the shorter of the two arcs between positions `i` and `j` on a
ring of size `k` (the cyclic distance between the two indices). -/
def ringDist (k i j : Nat) : Nat :=
  min (arcLen k i j) (arcLen k j i)

/-- Unrestricted graph distance: `distances_on_graph` with the cutoff set to
the node count, which every finite hop count is below. -/
def graphDist (g : BondGraph) (u v : Nat) : Option Nat :=
  distances_on_graph g (node_count g) u v

/-- Modelled from the spec: the shortest-path optimality test of §3/§4.3
step 4, whose C implementation is missing — "no shortcut outside the ring
connects any two ring nodes more directly than the ring itself provides":
for every pair of positions the graph distance between the two nodes equals
the cyclic distance the ring provides. -/
def spB (g : BondGraph) (r : List Nat) : Bool :=
  (List.range r.length).all fun i =>
    (List.range r.length).all fun j =>
      graphDist g (r.getD i 0) (r.getD j 0) == some (ringDist r.length i j)

/-- A shortest-path ring: a ring passing the optimality test. -/
def isSPRingB (g : BondGraph) (r : List Nat) : Bool :=
  isRingB g r && spB g r

/-- All length-`m` sequences over `0 .. n-1`. -/
def tuples (n : Nat) : Nat → List (List Nat)
  | 0 => [[]]
  | m + 1 => (List.range n).flatMap fun x => (tuples n m).map (x :: ·)

/-- Modelled from the spec: the exported entry point `py_find_sp_rings`
(§6, `find_sp_rings(graph, root, max_size) -> list of Rings`), whose C
implementation is missing.  All node sequences of length at most `max_size`
that start at the root node and pass the ring and shortest-path tests; each
ring is reported in every orientation that starts at the root (the spec
allows "duplicate orientations" in this per-root list). -/
def find_sp_rings (g : BondGraph) (root : Nat) (max_size : Nat) :
    List (List Nat) :=
  (List.range max_size).flatMap fun m =>
    ((tuples (node_count g) m).map fun t => root :: t).filter fun r =>
      isSPRingB g r

/-! ### Canonicalization and whole-graph enumeration (§4.4) -/

/-- All rotations of a sequence. -/
def rotations (r : List Nat) : List (List Nat) :=
  (List.range r.length).map fun i => r.rotate i

/-- The `2k` oriented representations of a ring: every rotation, in both
traversal directions. -/
def orientedForms (r : List Nat) : List (List Nat) :=
  rotations r ++ rotations r.reverse

/-- Least element of `a :: l` in the lexicographic order on sequences. -/
def minOf (a : List Nat) (l : List (List Nat)) : List Nat :=
  l.foldl (fun x y => if x ≤ y then x else y) a

/-- Modelled from the spec: the canonical form of §4.4, whose C
implementation is missing — "pick the rotation starting at the …
numerically smallest node index, and the traversal direction giving the
lexicographically smaller … sequence": the lexicographically least of the
`2k` oriented representations. -/
def canonicalize (r : List Nat) : List Nat :=
  minOf r (orientedForms r)

/-- Two sequences denote the same physical ring: one is a rotation of the
other or of its reversal (§3). -/
def SameRing (r s : List Nat) : Prop :=
  List.IsRotated r s ∨ List.IsRotated r s.reverse

/-- Candidate rings collected by driving the per-root finder over a list of
roots (§4.4 "Drives RingFinder once per root"). -/
def sp_ring_candidates (g : BondGraph) (roots : List Nat) (max_size : Nat) :
    List (List Nat) :=
  roots.flatMap fun root => find_sp_rings g root max_size

/-- The whole-graph enumeration for an explicit root list: canonicalize every
candidate, collapse duplicates, and present the set in its canonical
(sorted) order. -/
def enum_sp_rings_from (g : BondGraph) (roots : List Nat) (max_size : Nat) :
    List (List Nat) :=
  List.insertionSort (· ≤ ·)
    ((sp_ring_candidates g roots max_size).map canonicalize).dedup

/-- Modelled from the spec: the exported entry point `py_enum_sp_rings`
(§6, `enum_sp_rings(graph, max_size) -> RingSet`), whose C implementation is
missing.  The canonical, deduplicated set of all SP rings of the graph. -/
def enum_sp_rings (g : BondGraph) (max_size : Nat) : List (List Nat) :=
  enum_sp_rings_from g (List.range (node_count g)) max_size

/-- Ring count by size over an explicit root list (§4.4 "mapping from ring
size to ring count"). -/
def ring_histogram_from (g : BondGraph) (roots : List Nat)
    (max_size k : Nat) : Nat :=
  (enum_sp_rings_from g roots max_size).countP fun r => decide (r.length = k)

/-- Ring count by size for the whole graph. -/
def ring_histogram (g : BondGraph) (max_size k : Nat) : Nat :=
  ring_histogram_from g (List.range (node_count g)) max_size k

/-! ### Graph construction and input validation (§4.1, §7) -/

/-- Modelled from the spec: the error taxonomy of §7, whose C implementation
is missing — `InvalidGraph` is the fatal malformed-input error. -/
inductive GraphError where
  | invalidGraph : GraphError
deriving DecidableEq

/-- A single edge entry is well-formed: both endpoints in range, no self
edge. -/
def edgeOk (n : Nat) (e : Nat × Nat) : Bool :=
  decide (e.1 < n) && decide (e.2 < n) && decide (e.1 ≠ e.2)

/-- Two edge entries denote the same undirected edge. -/
def sameEdge (e f : Nat × Nat) : Bool :=
  (decide (e.1 = f.1) && decide (e.2 = f.2)) ||
    (decide (e.1 = f.2) && decide (e.2 = f.1))

/-- No undirected edge is supplied twice (in either orientation). -/
def noDupEdges : List (Nat × Nat) → Bool
  | [] => true
  | e :: rest => rest.all (fun f => !sameEdge e f) && noDupEdges rest

/-- Full validity check of an adjacency description. -/
def validEdgeList (n : Nat) (edges : List (Nat × Nat)) : Bool :=
  edges.all (edgeOk n) && noDupEdges edges

/-- Adjacency lists assembled from an edge list. -/
def adjFromEdges (n : Nat) (edges : List (Nat × Nat)) : List (List Nat) :=
  (List.range n).map fun u =>
    edges.filterMap fun e =>
      if e.1 = u then some e.2 else if e.2 = u then some e.1 else none

/-- Modelled from the spec: BondGraph construction (§4.1), whose C
implementation is missing — "Fails with `InvalidGraph` if an edge references
an out-of-range node index or a duplicate/self edge is supplied (policy:
reject, do not silently fix)". -/
def buildGraph (n : Nat) (edges : List (Nat × Nat)) :
    Except GraphError BondGraph :=
  if validEdgeList n edges then Except.ok ⟨adjFromEdges n edges⟩
  else Except.error GraphError.invalidGraph

/-- The distance boundary operation on a raw adjacency description: graph
construction followed by the distance query (§6, §7 "any malformed input
aborts the whole call"). -/
def distances_on_graph_checked (n : Nat) (edges : List (Nat × Nat))
    (max_distance : Nat) : Except GraphError (Nat → Nat → Option Nat) :=
  (buildGraph n edges).map fun g u v => distances_on_graph g max_distance u v

/-- The per-root ring boundary operation on a raw adjacency description. -/
def find_sp_rings_checked (n : Nat) (edges : List (Nat × Nat))
    (root max_size : Nat) : Except GraphError (List (List Nat)) :=
  (buildGraph n edges).map fun g => find_sp_rings g root max_size

/-- The whole-graph enumeration boundary operation on a raw adjacency
description. -/
def enum_sp_rings_checked (n : Nat) (edges : List (Nat × Nat))
    (max_size : Nat) : Except GraphError (List (List Nat)) :=
  (buildGraph n edges).map fun g => enum_sp_rings g max_size

/-- A malformed adjacency input in the sense of §4.1: some edge is out of
range or a self edge, or some undirected edge is supplied twice. -/
def MalformedInput (n : Nat) (edges : List (Nat × Nat)) : Prop :=
  (∃ e ∈ edges, n ≤ e.1 ∨ n ≤ e.2 ∨ e.1 = e.2) ∨
    ¬ List.Pairwise (fun e f => sameEdge e f = false) edges

/-- `u` and `v` lie in the same connected component: some walk joins them. -/
def InSameComponent (g : BondGraph) (u v : Nat) : Prop :=
  ∃ n, Reaches g u n v

/-! ### Concrete graphs from the spec's scenarios (§8) -/

/-- The triangle graph `{0-1, 1-2, 2-0}`. -/
def triangleGraph : BondGraph := ⟨[[1, 2], [0, 2], [0, 1]]⟩

/-- The square graph with one diagonal `{0-1, 1-2, 2-3, 3-0, 0-2}`. -/
def squareDiagGraph : BondGraph := ⟨[[1, 2, 3], [0, 2], [0, 1, 3], [0, 2]]⟩

/-- Two disjoint triangles `{0,1,2}` and `{3,4,5}`. -/
def twoTrianglesGraph : BondGraph :=
  ⟨[[1, 2], [0, 2], [0, 1], [4, 5], [3, 5], [3, 4]]⟩

/-- The path graph `0-1-2`. -/
def pathGraph : BondGraph := ⟨[[1], [0, 2], [1]]⟩

/-! ### Theorems -/

theorem hasEdge_out_of_range (g : BondGraph) (u v : Nat)
    (h : node_count g ≤ u) : hasEdge g u v = false := by
  have : neighbors g u = [] := by
    unfold neighbors
    exact List.getD_eq_default _ _ (by simpa [node_count] using h)
  simp [hasEdge, this]

theorem validB_spec (g : BondGraph) (h : validB g = true) (u v : Nat)
    (huv : hasEdge g u v = true) :
    v < node_count g ∧ v ≠ u ∧ hasEdge g v u = true := by
  by_cases hu : u < node_count g
  · have h1 := (List.all_eq_true.mp h) u (List.mem_range.mpr hu)
    simp only [Bool.and_eq_true] at h1
    have h2 := h1.2
    have hv : v ∈ neighbors g u := by simpa [hasEdge] using huv
    have h3 := (List.all_eq_true.mp h2) v hv
    simp only [Bool.and_eq_true, decide_eq_true_eq] at h3
    exact ⟨h3.1.1, h3.1.2, h3.2⟩
  · rw [hasEdge_out_of_range g u v (Nat.le_of_not_lt hu)] at huv
    exact absurd huv (by simp)

theorem hasEdge_symm (g : BondGraph) (h : validB g = true) (u v : Nat) :
    hasEdge g u v = hasEdge g v u := by
  cases huv : hasEdge g u v with
  | true => exact ((validB_spec g h u v huv).2.2).symm
  | false =>
    cases hvu : hasEdge g v u with
    | true =>
      have := (validB_spec g h v u hvu).2.2
      rw [huv] at this
      exact this
    | false => rfl

theorem mem_ball_iff_reaches (g : BondGraph) (u : Nat) :
    ∀ (n v : Nat), v ∈ ball g u n ↔ Reaches g u n v := by
  intro n
  induction n with
  | zero => intro v; simp [ball, Reaches]
  | succ n ih =>
    intro v
    simp only [ball, stepBall, List.mem_dedup, List.mem_append, List.mem_flatMap]
    constructor
    · rintro (hv | ⟨w, hw, hv⟩)
      · exact Or.inl ((ih v).mp hv)
      · refine Or.inr ⟨w, (ih w).mp hw, ?_⟩
        simp [hasEdge, hv]
    · rintro (hv | ⟨w, hw, hv⟩)
      · exact Or.inl ((ih v).mpr hv)
      · refine Or.inr ⟨w, (ih w).mpr hw, ?_⟩
        simpa [hasEdge] using hv

theorem Reaches.mono (g : BondGraph) (u v : Nat) {n : Nat}
    (h : Reaches g u n v) : Reaches g u (n + 1) v := Or.inl h

theorem Reaches.compose (g : BondGraph) (u w v : Nat) {m n : Nat}
    (h1 : Reaches g u m w) (h2 : Reaches g w n v) :
    Reaches g u (m + n) v := by
  induction n generalizing v with
  | zero =>
    cases h2
    simpa using h1
  | succ n ih =>
    rcases h2 with h2 | ⟨x, hx, hxv⟩
    · exact Reaches.mono g u v (ih v h2)
    · exact Or.inr ⟨x, ih x hx, hxv⟩

theorem reaches_symm (g : BondGraph) (hg : validB g = true) (u v : Nat) :
    ∀ n, Reaches g u n v → Reaches g v n u := by
  intro n
  induction n generalizing v with
  | zero => intro h; cases h; rfl
  | succ n ih =>
    rintro (h | ⟨w, hw, hwv⟩)
    · exact Reaches.mono g v u (ih v h)
    · have hvw : hasEdge g v w = true := by rw [hasEdge_symm g hg v w]; exact hwv
      have step1 : Reaches g v 1 w := Or.inr ⟨v, rfl, hvw⟩
      have := Reaches.compose g v w u step1 (ih w hw)
      simpa [Nat.add_comm] using this

theorem firstLe_eq_none_iff (p : Nat → Bool) (n : Nat) :
    firstLe p n = none ↔ ∀ j ≤ n, p j = false := by
  induction n with
  | zero =>
    unfold firstLe
    constructor
    · intro h j hj
      interval_cases j
      by_contra hc
      rw [if_pos (eq_true_of_ne_false hc)] at h
      cases h
    · intro h
      simp [h 0 (Nat.le_refl 0)]
  | succ n ih =>
    unfold firstLe
    cases hprev : firstLe p n with
    | some e =>
      constructor
      · intro h; cases h
      · intro h
        have hnone : firstLe p n = none := ih.mpr (fun j hj => h j (by omega))
        rw [hnone] at hprev
        cases hprev
    | none =>
      have hp := ih.mp hprev
      constructor
      · intro h j hj
        rcases Nat.lt_or_ge j (n + 1) with hlt | hge
        · exact hp j (by omega)
        · have : j = n + 1 := by omega
          subst this
          by_contra hc
          rw [if_pos (eq_true_of_ne_false hc)] at h
          cases h
      · intro h
        simp [h (n + 1) (Nat.le_refl _)]

theorem firstLe_eq_some_iff (p : Nat → Bool) (n : Nat) :
    ∀ d, firstLe p n = some d ↔ d ≤ n ∧ p d = true ∧ ∀ j < d, p j = false := by
  induction n with
  | zero =>
    intro d
    constructor
    · intro h
      unfold firstLe at h
      by_cases h0 : p 0 = true
      · rw [if_pos h0] at h
        cases h
        exact ⟨Nat.le_refl 0, h0, by omega⟩
      · rw [if_neg h0] at h
        cases h
    · rintro ⟨hd, hp, _⟩
      interval_cases d
      unfold firstLe
      simp [hp]
  | succ n ih =>
    intro d
    constructor
    · intro h
      unfold firstLe at h
      cases hprev : firstLe p n with
      | some e =>
        rw [hprev] at h
        cases h
        have he := (ih d).mp hprev
        exact ⟨Nat.le_succ_of_le he.1, he.2.1, he.2.2⟩
      | none =>
        rw [hprev] at h
        have hall := (firstLe_eq_none_iff p n).mp hprev
        by_cases hs : p (n + 1) = true
        · rw [if_pos hs] at h
          cases h
          exact ⟨Nat.le_refl _, hs, fun j hj => hall j (by omega)⟩
        · rw [if_neg hs] at h
          cases h
    · rintro ⟨hd, hp, hmin⟩
      unfold firstLe
      cases hprev : firstLe p n with
      | some e =>
        have he := (ih e).mp hprev
        have : e = d := by
          rcases Nat.lt_trichotomy e d with h | h | h
          · exact absurd he.2.1 (by simp [hmin e h])
          · exact h
          · exact absurd hp (by simp [he.2.2 d h])
        rw [this]
      | none =>
        have hall := (firstLe_eq_none_iff p n).mp hprev
        have hdn : d = n + 1 := by
          rcases Nat.lt_or_ge d (n + 1) with hlt | hge
          · exact absurd hp (by simp [hall d (by omega)])
          · omega
        subst hdn
        simp [hp]

theorem firstLe_congr (p q : Nat → Bool) (n : Nat)
    (h : ∀ i, p i = q i) : firstLe p n = firstLe q n := by
  induction n with
  | zero => unfold firstLe; rw [h 0]
  | succ n ih => unfold firstLe; rw [ih, h (n + 1)]

theorem distances_on_graph_eq_some_iff (g : BondGraph) (maxd u v d : Nat) :
    distances_on_graph g maxd u v = some d ↔
      d ≤ maxd ∧ Reaches g u d v ∧ ∀ j < d, ¬ Reaches g u j v := by
  unfold distances_on_graph
  rw [firstLe_eq_some_iff]
  constructor
  · rintro ⟨h1, h2, h3⟩
    refine ⟨h1, (mem_ball_iff_reaches g u d v).mp (by simpa using h2), ?_⟩
    intro j hj hr
    have := h3 j hj
    simp [(mem_ball_iff_reaches g u j v).mpr hr] at this
  · rintro ⟨h1, h2, h3⟩
    refine ⟨h1, by simpa using (mem_ball_iff_reaches g u d v).mpr h2, ?_⟩
    intro j hj
    simpa using fun hr => h3 j hj ((mem_ball_iff_reaches g u j v).mp hr)

theorem distances_on_graph_eq_none_iff (g : BondGraph) (maxd u v : Nat) :
    distances_on_graph g maxd u v = none ↔ ∀ j ≤ maxd, ¬ Reaches g u j v := by
  unfold distances_on_graph
  rw [firstLe_eq_none_iff]
  constructor
  · intro h j hj hr
    have := h j hj
    simp [(mem_ball_iff_reaches g u j v).mpr hr] at this
  · intro h j hj
    simpa using fun hr => h j hj ((mem_ball_iff_reaches g u j v).mp hr)

theorem mem_tuples_iff (n : Nat) :
    ∀ (m : Nat) (t : List Nat),
      t ∈ tuples n m ↔ t.length = m ∧ ∀ x ∈ t, x < n := by
  intro m
  induction m with
  | zero =>
    intro t
    simp only [tuples, List.mem_singleton]
    constructor
    · rintro rfl; simp
    · rintro ⟨h, _⟩; exact List.eq_nil_of_length_eq_zero h
  | succ m ih =>
    intro t
    simp only [tuples, List.mem_flatMap, List.mem_map, List.mem_range]
    constructor
    · rintro ⟨x, hx, t', ht', rfl⟩
      have := (ih t').mp ht'
      refine ⟨by simp [this.1], ?_⟩
      intro y hy
      rcases List.mem_cons.mp hy with rfl | hy
      · exact hx
      · exact this.2 y hy
    · rintro ⟨hlen, hmem⟩
      cases t with
      | nil => cases hlen
      | cons x t' =>
        refine ⟨x, hmem x (List.mem_cons_self x t'), t', ?_, rfl⟩
        exact (ih t').mpr ⟨by simpa using hlen, fun y hy => hmem y (List.mem_cons_of_mem x hy)⟩

theorem mem_find_sp_rings_iff (g : BondGraph) (root max_size : Nat)
    (r : List Nat) :
    r ∈ find_sp_rings g root max_size ↔
      (∃ t, r = root :: t ∧ t.length < max_size ∧ ∀ x ∈ t, x < node_count g) ∧
        isSPRingB g r = true := by
  simp only [find_sp_rings, List.mem_flatMap, List.mem_filter, List.mem_map,
    List.mem_range]
  constructor
  · rintro ⟨m, hm, ⟨⟨t, ht, rfl⟩, hsp⟩⟩
    have := (mem_tuples_iff _ m t).mp ht
    exact ⟨⟨t, rfl, this.1 ▸ hm, this.2⟩, hsp⟩
  · rintro ⟨⟨t, rfl, hlt, hmem⟩, hsp⟩
    exact ⟨t.length, hlt, ⟨⟨t, (mem_tuples_iff _ _ t).mpr ⟨rfl, hmem⟩, rfl⟩, hsp⟩⟩

theorem minOf_mem (l : List (List Nat)) : ∀ a, minOf a l ∈ a :: l := by
  induction l with
  | nil => intro a; simp [minOf]
  | cons b l ih =>
    intro a
    simp only [minOf, List.foldl_cons]
    by_cases hab : a ≤ b
    · rw [if_pos hab]
      rcases List.mem_cons.mp (ih a) with h | h
      · rw [show List.foldl (fun x y => if x ≤ y then x else y) a l = a from h]
        exact List.mem_cons_self _ _
      · exact List.mem_cons_of_mem _ (List.mem_cons_of_mem _ h)
    · rw [if_neg hab]
      rcases List.mem_cons.mp (ih b) with h | h
      · rw [show List.foldl (fun x y => if x ≤ y then x else y) b l = b from h]
        exact List.mem_cons_of_mem _ (List.mem_cons_self _ _)
      · exact List.mem_cons_of_mem _ (List.mem_cons_of_mem _ h)

theorem minOf_le (l : List (List Nat)) :
    ∀ a, ∀ x ∈ a :: l, minOf a l ≤ x := by
  induction l with
  | nil =>
    intro a x hx
    rcases List.mem_cons.mp hx with rfl | h
    · exact le_of_eq rfl
    · cases h
  | cons b l ih =>
    intro a x hx
    simp only [minOf, List.foldl_cons]
    rcases List.mem_cons.mp hx with rfl | hx'
    · by_cases hab : x ≤ b
      · rw [if_pos hab]
        exact ih x x (List.mem_cons_self x l)
      · rw [if_neg hab]
        exact le_trans (ih b b (List.mem_cons_self b l)) (le_of_not_le hab)
    · rcases List.mem_cons.mp hx' with rfl | hx''
      · by_cases hab : a ≤ x
        · rw [if_pos hab]
          exact le_trans (ih a a (List.mem_cons_self a l)) hab
        · rw [if_neg hab]
          exact ih x x (List.mem_cons_self x l)
      · by_cases hab : a ≤ b
        · rw [if_pos hab]
          exact ih a x (List.mem_cons_of_mem a hx'')
        · rw [if_neg hab]
          exact ih b x (List.mem_cons_of_mem b hx'')

theorem minOf_eq_of_mem_iff {a a' : List Nat} {l l' : List (List Nat)}
    (ha : a ∈ l) (ha' : a' ∈ l')
    (h : ∀ x, x ∈ l ↔ x ∈ l') : minOf a l = minOf a' l' := by
  have m1 : minOf a l ∈ l := by
    rcases List.mem_cons.mp (minOf_mem l a) with h1 | h1
    · rw [h1]; exact ha
    · exact h1
  have m2 : minOf a' l' ∈ l' := by
    rcases List.mem_cons.mp (minOf_mem l' a') with h1 | h1
    · rw [h1]; exact ha'
    · exact h1
  have le1 : minOf a l ≤ minOf a' l' :=
    minOf_le l a _ (List.mem_cons_of_mem a ((h _).mpr m2))
  have le2 : minOf a' l' ≤ minOf a l :=
    minOf_le l' a' _ (List.mem_cons_of_mem a' ((h _).mp m1))
  exact le_antisymm le1 le2

theorem mem_rotations_iff {r x : List Nat} (hr : r ≠ []) :
    x ∈ rotations r ↔ List.IsRotated r x := by
  simp only [rotations, List.mem_map, List.mem_range]
  constructor
  · rintro ⟨i, _, rfl⟩
    exact ⟨i, rfl⟩
  · rintro ⟨n, rfl⟩
    refine ⟨n % r.length, ?_, List.rotate_mod r n⟩
    exact Nat.mod_lt _ (List.length_pos.mpr hr)

theorem mem_orientedForms_iff {r x : List Nat} (hr : r ≠ []) :
    x ∈ orientedForms r ↔
      List.IsRotated r x ∨ List.IsRotated r.reverse x := by
  have hrev : r.reverse ≠ [] := by simpa using hr
  simp [orientedForms, List.mem_append, mem_rotations_iff hr,
    mem_rotations_iff hrev]

theorem sameRing_of_mem_orientedForms {r x : List Nat} (hr : r ≠ [])
    (hx : x ∈ orientedForms r) : SameRing r x := by
  rcases (mem_orientedForms_iff hr).mp hx with h | h
  · exact Or.inl h
  · exact Or.inr (by simpa using h.reverse)

theorem SameRing.length_eq {r s : List Nat} (h : SameRing r s) :
    r.length = s.length := by
  rcases h with h | h
  · exact h.perm.length_eq
  · simpa using h.perm.length_eq

theorem sameRing_symm {r s : List Nat} (h : SameRing r s) : SameRing s r := by
  rcases h with h | h
  · exact Or.inl h.symm
  · have : List.IsRotated r.reverse s := by simpa using h.reverse
    exact Or.inr this.symm

theorem orientedForms_mem_congr {r s : List Nat} (h : SameRing r s) :
    ∀ x, x ∈ orientedForms r ↔ x ∈ orientedForms s := by
  intro x
  by_cases hr : r = []
  · subst hr
    have hs : s = [] := List.length_eq_zero.mp h.length_eq.symm
    subst hs
    rfl
  · have hs : s ≠ [] := by
      intro hc
      subst hc
      exact hr (List.length_eq_zero.mp (by simpa using h.length_eq))
    rw [mem_orientedForms_iff hr, mem_orientedForms_iff hs]
    rcases h with h | h
    · constructor
      · rintro (h1 | h1)
        · exact Or.inl (h.symm.trans h1)
        · exact Or.inr ((h.reverse).symm.trans h1)
      · rintro (h1 | h1)
        · exact Or.inl (h.trans h1)
        · exact Or.inr ((h.reverse).trans h1)
    · have h1 : List.IsRotated r.reverse s := by simpa using h.reverse
      constructor
      · rintro (hx | hx)
        · exact Or.inr (h.symm.trans hx)
        · exact Or.inl (h1.symm.trans hx)
      · rintro (hx | hx)
        · exact Or.inr (h1.trans hx)
        · exact Or.inl (h.trans hx)

theorem self_mem_orientedForms {r : List Nat} (hr : r ≠ []) :
    r ∈ orientedForms r :=
  (mem_orientedForms_iff hr).mpr (Or.inl (List.IsRotated.refl r))

theorem canonicalize_eq_of_sameRing {r s : List Nat} (hr : r ≠ [])
    (hs : s ≠ []) (h : SameRing r s) : canonicalize r = canonicalize s :=
  minOf_eq_of_mem_iff (self_mem_orientedForms hr) (self_mem_orientedForms hs)
    (orientedForms_mem_congr h)

theorem canonicalize_mem_orientedForms {r : List Nat} (hr : r ≠ []) :
    canonicalize r ∈ orientedForms r := by
  rcases List.mem_cons.mp (minOf_mem (orientedForms r) r) with h | h
  · rw [canonicalize, h]; exact self_mem_orientedForms hr
  · exact h

theorem sameRing_canonicalize {r : List Nat} (hr : r ≠ []) :
    SameRing r (canonicalize r) :=
  sameRing_of_mem_orientedForms hr (canonicalize_mem_orientedForms hr)

theorem canonicalize_ne_nil {r : List Nat} (hr : r ≠ []) :
    canonicalize r ≠ [] := by
  intro hc
  have hlen := (sameRing_canonicalize hr).length_eq
  rw [hc] at hlen
  exact hr (List.length_eq_zero.mp hlen)

theorem canonicalize_idem {r : List Nat} (hr : r ≠ []) :
    canonicalize (canonicalize r) = canonicalize r :=
  canonicalize_eq_of_sameRing (canonicalize_ne_nil hr) hr
    (sameRing_symm (sameRing_canonicalize hr))

theorem mem_enum_sp_rings_from_iff (g : BondGraph) (roots : List Nat)
    (max_size : Nat) (r : List Nat) :
    r ∈ enum_sp_rings_from g roots max_size ↔
      ∃ c ∈ sp_ring_candidates g roots max_size, canonicalize c = r := by
  unfold enum_sp_rings_from
  rw [List.mem_insertionSort, List.mem_dedup, List.mem_map]

theorem mem_sp_ring_candidates_iff (g : BondGraph) (roots : List Nat)
    (max_size : Nat) (c : List Nat) :
    c ∈ sp_ring_candidates g roots max_size ↔
      ∃ root ∈ roots, c ∈ find_sp_rings g root max_size := by
  simp [sp_ring_candidates, List.mem_flatMap]

/-! ### Invariance of the ring tests under rotation and reversal -/

theorem getD_rotate (r : List Nat) (m i : Nat) (hi : i < r.length) :
    (r.rotate m).getD i 0 = r.getD ((i + m) % r.length) 0 := by
  have h1 : i < (r.rotate m).length := by simpa [List.length_rotate] using hi
  have h2 : (i + m) % r.length < r.length := Nat.mod_lt _ (by omega)
  rw [List.getD_eq_getElem _ _ h1, List.getD_eq_getElem _ _ h2,
    List.getElem_rotate]

theorem getD_reverse (r : List Nat) (i : Nat) (hi : i < r.length) :
    r.reverse.getD i 0 = r.getD (r.length - 1 - i) 0 := by
  have h1 : i < r.reverse.length := by simpa using hi
  have h2 : r.length - 1 - i < r.length := by omega
  rw [List.getD_eq_getElem _ _ h1, List.getD_eq_getElem _ _ h2,
    List.getElem_reverse]

theorem ringAdjB_iff (g : BondGraph) (r : List Nat) :
    ringAdjB g r = true ↔
      ∀ i < r.length,
        hasEdge g (r.getD i 0) (r.getD ((i + 1) % r.length) 0) = true := by
  simp [ringAdjB, List.all_eq_true, List.mem_range]

theorem spB_iff (g : BondGraph) (r : List Nat) :
    spB g r = true ↔
      ∀ i < r.length, ∀ j < r.length,
        graphDist g (r.getD i 0) (r.getD j 0) =
          some (ringDist r.length i j) := by
  simp [spB, List.all_eq_true, List.mem_range]

theorem isRingB_iff (g : BondGraph) (r : List Nat) :
    isRingB g r = true ↔ 3 ≤ r.length ∧ r.Nodup ∧ ringAdjB g r = true := by
  simp [isRingB, Bool.and_eq_true, and_assoc]

theorem arcLen_shift (k i j m : Nat) :
    arcLen k ((i + m) % k) ((j + m) % k) = arcLen k i j := by
  unfold arcLen
  congr 1
  rw [Int.natCast_mod, Int.natCast_mod]
  push_cast
  rw [← Int.sub_emod]
  congr 1
  ring

theorem arcLen_rev (k i j : Nat) (hi : i < k) (hj : j < k) :
    arcLen k (k - 1 - i) (k - 1 - j) = arcLen k j i := by
  unfold arcLen
  congr 1
  have h1 : ((k - 1 - i : Nat) : Int) = (k : Int) - 1 - i := by omega
  have h2 : ((k - 1 - j : Nat) : Int) = (k : Int) - 1 - j := by omega
  rw [h1, h2]
  congr 1
  ring

theorem ringDist_shift (k i j m : Nat) :
    ringDist k ((i + m) % k) ((j + m) % k) = ringDist k i j := by
  unfold ringDist
  rw [arcLen_shift, arcLen_shift]

theorem ringDist_rev (k i j : Nat) (hi : i < k) (hj : j < k) :
    ringDist k (k - 1 - i) (k - 1 - j) = ringDist k i j := by
  unfold ringDist
  rw [arcLen_rev k i j hi hj, arcLen_rev k j i hj hi]
  exact Nat.min_comm _ _

theorem mod_shift_succ (k i m : Nat) :
    ((i + 1) % k + m) % k = ((i + m) % k + 1) % k := by
  rw [Nat.mod_add_mod, Nat.mod_add_mod, Nat.add_right_comm]

theorem ringAdjB_rotate (g : BondGraph) (r : List Nat) (m : Nat)
    (h : ringAdjB g r = true) : ringAdjB g (r.rotate m) = true := by
  rw [ringAdjB_iff] at h ⊢
  intro i hi
  rw [List.length_rotate] at hi ⊢
  have hk : 0 < r.length := by omega
  have hmod : (i + 1) % r.length < r.length := Nat.mod_lt _ hk
  rw [getD_rotate r m i hi, getD_rotate r m _ hmod, mod_shift_succ]
  exact h ((i + m) % r.length) (Nat.mod_lt _ hk)

theorem ringAdjB_reverse (g : BondGraph) (hg : validB g = true)
    (r : List Nat) (h : ringAdjB g r = true) :
    ringAdjB g r.reverse = true := by
  rw [ringAdjB_iff] at h ⊢
  intro i hi
  rw [List.length_reverse] at hi ⊢
  have hk : 0 < r.length := by omega
  by_cases hlast : i + 1 = r.length
  · have h0 : (i + 1) % r.length = 0 := by rw [hlast]; exact Nat.mod_self _
    rw [h0, getD_reverse r i hi, getD_reverse r 0 hk,
      show r.length - 1 - i = 0 by omega, Nat.sub_zero]
    have hstep := h (r.length - 1) (by omega)
    rw [show (r.length - 1 + 1) % r.length = 0 by
      rw [show r.length - 1 + 1 = r.length by omega]; exact Nat.mod_self _]
      at hstep
    rw [hasEdge_symm g hg]
    exact hstep
  · have hi1 : i + 1 < r.length := by omega
    rw [Nat.mod_eq_of_lt hi1, getD_reverse r i hi, getD_reverse r (i + 1) hi1]
    have hjlt : r.length - 1 - (i + 1) < r.length := by omega
    have hstep := h (r.length - 1 - (i + 1)) hjlt
    rw [show (r.length - 1 - (i + 1) + 1) % r.length = r.length - 1 - i by
      rw [show r.length - 1 - (i + 1) + 1 = r.length - 1 - i by omega]
      exact Nat.mod_eq_of_lt (by omega)] at hstep
    rw [hasEdge_symm g hg]
    exact hstep

theorem spB_rotate (g : BondGraph) (r : List Nat) (m : Nat)
    (h : spB g r = true) : spB g (r.rotate m) = true := by
  rw [spB_iff] at h ⊢
  intro i hi j hj
  rw [List.length_rotate] at hi hj ⊢
  have hk : 0 < r.length := by omega
  rw [getD_rotate r m i hi, getD_rotate r m j hj,
    ← ringDist_shift r.length i j m]
  exact h _ (Nat.mod_lt _ hk) _ (Nat.mod_lt _ hk)

theorem spB_reverse (g : BondGraph) (r : List Nat)
    (h : spB g r = true) : spB g r.reverse = true := by
  rw [spB_iff] at h ⊢
  intro i hi j hj
  rw [List.length_reverse] at hi hj ⊢
  rw [getD_reverse r i hi, getD_reverse r j hj,
    ← ringDist_rev r.length i j hi hj]
  exact h _ (by omega) _ (by omega)

theorem isRingB_rotate (g : BondGraph) (r : List Nat) (m : Nat)
    (h : isRingB g r = true) : isRingB g (r.rotate m) = true := by
  rw [isRingB_iff] at h ⊢
  exact ⟨by rw [List.length_rotate]; exact h.1,
    ((List.rotate_perm r m).nodup_iff).mpr h.2.1, ringAdjB_rotate g r m h.2.2⟩

theorem isRingB_reverse (g : BondGraph) (hg : validB g = true)
    (r : List Nat) (h : isRingB g r = true) : isRingB g r.reverse = true := by
  rw [isRingB_iff] at h ⊢
  exact ⟨by simpa using h.1, by simpa using h.2.1,
    ringAdjB_reverse g hg r h.2.2⟩

theorem isSPRingB_of_orientedForm (g : BondGraph) (hg : validB g = true)
    {c x : List Nat} (hc : isSPRingB g c = true) (hx : x ∈ orientedForms c) :
    isSPRingB g x = true := by
  unfold isSPRingB at hc ⊢
  rw [Bool.and_eq_true] at hc ⊢
  simp only [orientedForms, rotations, List.mem_append, List.mem_map,
    List.mem_range] at hx
  rcases hx with ⟨i, _, rfl⟩ | ⟨i, _, rfl⟩
  · exact ⟨isRingB_rotate g c i hc.1, spB_rotate g c i hc.2⟩
  · exact ⟨isRingB_rotate g c.reverse i (isRingB_reverse g hg c hc.1),
      spB_rotate g c.reverse i (spB_reverse g c hc.2)⟩

theorem isSPRingB_length {g : BondGraph} {r : List Nat}
    (h : isSPRingB g r = true) : 3 ≤ r.length := by
  unfold isSPRingB at h
  rw [Bool.and_eq_true] at h
  exact ((isRingB_iff g r).mp h.1).1

theorem ring_nodes_lt (g : BondGraph) (hg : validB g = true) (r : List Nat)
    (hadj : ringAdjB g r = true) : ∀ x ∈ r, x < node_count g := by
  intro x hx
  obtain ⟨i, hi, rfl⟩ := List.mem_iff_getElem.mp hx
  rw [ringAdjB_iff] at hadj
  have hk : 0 < r.length := by omega
  have hpred : (i + r.length - 1) % r.length < r.length := Nat.mod_lt _ hk
  have hstep := hadj _ hpred
  rw [show ((i + r.length - 1) % r.length + 1) % r.length = i by
    rw [Nat.mod_add_mod, show i + r.length - 1 + 1 = i + r.length by omega,
      Nat.add_mod_right]
    exact Nat.mod_eq_of_lt hi] at hstep
  have hlt := (validB_spec g hg _ _ hstep).1
  rw [List.getD_eq_getElem _ _ hi] at hlt
  exact hlt

/-- C2: completeness of the per-root search — for every graph satisfying
the BondGraph invariants, every root node and every bound, every
shortest-path ring through that root of size at most the bound is returned
by `find_sp_rings` (up to the orientation in which the same physical ring is
reported). -/
theorem find_sp_rings_complete (g : BondGraph) (hg : validB g = true)
    (root max_size : Nat) (r : List Nat) (hr : isSPRingB g r = true)
    (hroot : root ∈ r) (hlen : r.length ≤ max_size) :
    ∃ s ∈ find_sp_rings g root max_size, SameRing r s := by
  obtain ⟨i, hi, hri⟩ := List.mem_iff_getElem.mp hroot
  have hk3 : 3 ≤ r.length := isSPRingB_length hr
  have hslen : (r.rotate i).length = r.length := List.length_rotate r i
  have hsp : isSPRingB g (r.rotate i) = true := by
    unfold isSPRingB at hr ⊢
    rw [Bool.and_eq_true] at hr ⊢
    exact ⟨isRingB_rotate g r i hr.1, spB_rotate g r i hr.2⟩
  have hsne : r.rotate i ≠ [] := by
    intro h
    rw [h] at hslen
    simp at hslen
    omega
  obtain ⟨a, t, hat⟩ := List.exists_cons_of_ne_nil hsne
  have ha : a = root := by
    have h0 := getD_rotate r i 0 (by omega)
    rw [hat] at h0
    simp only [List.getD_cons_zero] at h0
    rw [Nat.zero_add, Nat.mod_eq_of_lt hi, List.getD_eq_getElem _ _ hi, hri]
      at h0
    exact h0
  refine ⟨r.rotate i, ?_, Or.inl ⟨i, rfl⟩⟩
  rw [mem_find_sp_rings_iff]
  refine ⟨⟨t, by rw [hat, ha], ?_, ?_⟩, hsp⟩
  · have : t.length + 1 = r.length := by
      rw [← hslen, hat]
      simp
    omega
  · intro x hxt
    have hxs : x ∈ r.rotate i := by
      rw [hat]
      exact List.mem_cons_of_mem a hxt
    have hadj : ringAdjB g (r.rotate i) = true := by
      unfold isSPRingB at hsp
      rw [Bool.and_eq_true] at hsp
      exact ((isRingB_iff g _).mp hsp.1).2.2
    exact ring_nodes_lt g hg _ hadj x hxs

theorem mem_enum_sp_rings_from_sp (g : BondGraph) (hg : validB g = true)
    (roots : List Nat) (max_size : Nat) (r : List Nat)
    (h : r ∈ enum_sp_rings_from g roots max_size) :
    isSPRingB g r = true := by
  obtain ⟨c, hc, hcr⟩ := (mem_enum_sp_rings_from_iff g roots max_size r).mp h
  obtain ⟨root, _, hcf⟩ := (mem_sp_ring_candidates_iff g roots max_size c).mp hc
  have hcsp : isSPRingB g c = true :=
    ((mem_find_sp_rings_iff g root max_size c).mp hcf).2
  have hcne : c ≠ [] := by
    intro h'
    have := isSPRingB_length hcsp
    rw [h'] at this
    simp at this
  rw [← hcr]
  exact isSPRingB_of_orientedForm g hg hcsp (canonicalize_mem_orientedForms hcne)

theorem noDupEdges_iff (edges : List (Nat × Nat)) :
    noDupEdges edges = true ↔
      List.Pairwise (fun e f => sameEdge e f = false) edges := by
  induction edges with
  | nil => simp [noDupEdges]
  | cons e rest ih =>
    simp [noDupEdges, Bool.and_eq_true, List.all_eq_true, ih,
      List.pairwise_cons]

theorem validEdgeList_eq_false_of_malformed {n : Nat}
    {edges : List (Nat × Nat)} (h : MalformedInput n edges) :
    validEdgeList n edges = false := by
  cases hv : validEdgeList n edges with
  | false => rfl
  | true =>
    exfalso
    unfold validEdgeList at hv
    rw [Bool.and_eq_true] at hv
    rcases h with ⟨e, he, hbad⟩ | hdup
    · have hok := List.all_eq_true.mp hv.1 e he
      unfold edgeOk at hok
      simp only [Bool.and_eq_true, decide_eq_true_eq] at hok
      rcases hbad with hb | hb | hb <;> omega
    · exact hdup ((noDupEdges_iff edges).mp hv.2)

theorem reaches_mem_closed (g : BondGraph) (S : List Nat)
    (hclosed : ∀ a ∈ S, ∀ b ∈ neighbors g a, b ∈ S) (u : Nat) (hu : u ∈ S) :
    ∀ n v, Reaches g u n v → v ∈ S := by
  intro n
  induction n with
  | zero =>
    intro v h
    simp only [Reaches] at h
    subst h
    exact hu
  | succ n ih =>
    intro v h
    rcases h with h | ⟨w, hw, hwv⟩
    · exact ih v h
    · have hwS := ih w hw
      have hvnb : v ∈ neighbors g w := by simpa [hasEdge] using hwv
      exact hclosed w hwS v hvnb

theorem arcLen_eq (k i j : Nat) (hi : i < k) (hj : j < k) :
    arcLen k i j = if i ≤ j then j - i else k - (i - j) := by
  unfold arcLen
  by_cases hij : i ≤ j
  · rw [if_pos hij, Int.emod_eq_of_lt (by omega) (by omega)]
    omega
  · rw [if_neg hij]
    have h1 : ((j : Int) - i) % k = ((j : Int) - i + k) % k := by
      conv_rhs => rw [show (j : Int) - i + k = (j : Int) - i + k * 1 by ring]
      rw [Int.add_mul_emod_self_left]
    rw [h1, Int.emod_eq_of_lt (by omega) (by omega)]
    omega

theorem arcLen_add (k i j : Nat) (hi : i < k) (hj : j < k) (hne : i ≠ j) :
    arcLen k i j + arcLen k j i = k := by
  rw [arcLen_eq k i j hi hj, arcLen_eq k j i hj hi]
  by_cases hij : i ≤ j
  · rw [if_pos hij, if_neg (by omega)]
    omega
  · rw [if_neg hij, if_pos (by omega)]
    omega

/-- Every element of the collection driven over a root list passes the ring
and shortest-path tests. -/
theorem sp_ring_candidates_sp (g : BondGraph) (roots : List Nat)
    (max_size : Nat) (c : List Nat)
    (hc : c ∈ sp_ring_candidates g roots max_size) :
    isSPRingB g c = true := by
  obtain ⟨root, _, hcf⟩ := (mem_sp_ring_candidates_iff g roots max_size c).mp hc
  exact ((mem_find_sp_rings_iff g root max_size c).mp hcf).2

/-- A ring reported by either boundary operation passes the ring and
shortest-path tests. -/
theorem returned_ring_sp (g : BondGraph) (hg : validB g = true)
    (root max_size : Nat) (r : List Nat)
    (h : r ∈ find_sp_rings g root max_size ∨ r ∈ enum_sp_rings g max_size) :
    isSPRingB g r = true := by
  rcases h with h | h
  · exact ((mem_find_sp_rings_iff g root max_size r).mp h).2
  · exact mem_enum_sp_rings_from_sp g hg _ _ r h

/-! ### The claimed properties -/

/-- C1 (amended): for every ring returned by `find_sp_rings` or
`enum_sp_rings` and every pair of split points, the two arc lengths sum to
the ring size, and the SHORTER of the two arcs realizes the shortest-path
graph distance (returned by `distances_on_graph`) between the split
endpoints — no shortcut exists.  (The original claim that EACH arc's length
equals that distance is refuted by `sp_ring_longer_arc_exceeds_distance`:
the longer arc of an uneven split exceeds it.) -/
theorem sp_ring_arcs_optimal (g : BondGraph) (hg : validB g = true)
    (root max_size : Nat) (r : List Nat)
    (h : r ∈ find_sp_rings g root max_size ∨ r ∈ enum_sp_rings g max_size) :
    ∀ i < r.length, ∀ j < r.length,
      graphDist g (r.getD i 0) (r.getD j 0) =
        some (min (arcLen r.length i j) (arcLen r.length j i)) ∧
      (i ≠ j → arcLen r.length i j + arcLen r.length j i = r.length) := by
  have hsp := returned_ring_sp g hg root max_size r h
  unfold isSPRingB at hsp
  rw [Bool.and_eq_true] at hsp
  intro i hi j hj
  constructor
  · have := (spB_iff g r).mp hsp.2 i hi j hj
    simpa [ringDist] using this
  · intro hne
    exact arcLen_add r.length i j hi hj hne

/-- Witness for C1: on the triangle graph, the split of the returned ring
`[0, 1, 2]` at positions 0 and 1 has arcs of lengths 1 and 2, and the
shorter one realizes the graph distance 1. -/
theorem sp_ring_arcs_optimal_witness :
    graphDist triangleGraph (([0, 1, 2] : List Nat).getD 0 0)
        (([0, 1, 2] : List Nat).getD 1 0) =
      some (min (arcLen ([0, 1, 2] : List Nat).length 0 1)
        (arcLen ([0, 1, 2] : List Nat).length 1 0)) ∧
    (0 ≠ 1 →
      arcLen ([0, 1, 2] : List Nat).length 0 1 +
        arcLen ([0, 1, 2] : List Nat).length 1 0 =
        ([0, 1, 2] : List Nat).length) :=
  sp_ring_arcs_optimal triangleGraph (by decide) 0 3 [0, 1, 2]
    (Or.inr (by decide)) 0 (by decide) 1 (by decide)

/-- C1 as stated is false: on the triangle graph the returned ring
`[0, 1, 2]` split at positions 0 and 1 has an arc of length 2 between nodes
at graph distance 1, so it is NOT the case that each arc's length equals the
graph distance between the split endpoints. -/
theorem sp_ring_longer_arc_exceeds_distance :
    ¬ (∀ r ∈ enum_sp_rings triangleGraph 3, ∀ i < r.length, ∀ j < r.length,
        i ≠ j →
          graphDist triangleGraph (r.getD i 0) (r.getD j 0) =
            some (arcLen r.length i j) ∧
          graphDist triangleGraph (r.getD i 0) (r.getD j 0) =
            some (arcLen r.length j i)) := by
  decide

/-- Witness for C2: the SP ring `[1, 2, 0]` of the triangle graph passes
through root 0, and some orientation of it is returned by
`find_sp_rings triangleGraph 0 3`. -/
theorem find_sp_rings_complete_witness :
    validB triangleGraph = true ∧
    ∃ s ∈ find_sp_rings triangleGraph 0 3, SameRing [1, 2, 0] s :=
  ⟨by decide,
    find_sp_rings_complete triangleGraph (by decide) 0 3 [1, 2, 0]
      (by decide) (by decide) (by decide)⟩

/-- C3: soundness — every ring returned by `find_sp_rings` or
`enum_sp_rings` is a closed, node-simple cycle of the input graph of size at
least 3: consecutive nodes (the last back to the first) are adjacent, and no
node occurs twice. -/
theorem returned_rings_are_cycles (g : BondGraph) (hg : validB g = true)
    (root max_size : Nat) (r : List Nat)
    (h : r ∈ find_sp_rings g root max_size ∨ r ∈ enum_sp_rings g max_size) :
    3 ≤ r.length ∧ r.Nodup ∧
      ∀ i < r.length,
        hasEdge g (r.getD i 0) (r.getD ((i + 1) % r.length) 0) = true := by
  have hsp := returned_ring_sp g hg root max_size r h
  unfold isSPRingB at hsp
  rw [Bool.and_eq_true] at hsp
  have h1 := (isRingB_iff g r).mp hsp.1
  exact ⟨h1.1, h1.2.1, (ringAdjB_iff g r).mp h1.2.2⟩

/-- Witness for C3: the ring `[0, 1, 2]` returned by
`find_sp_rings triangleGraph 0 3` is a node-simple cycle of size 3. -/
theorem returned_rings_are_cycles_witness :
    3 ≤ ([0, 1, 2] : List Nat).length ∧ ([0, 1, 2] : List Nat).Nodup ∧
      ∀ i < ([0, 1, 2] : List Nat).length,
        hasEdge triangleGraph (([0, 1, 2] : List Nat).getD i 0)
          (([0, 1, 2] : List Nat).getD
            ((i + 1) % ([0, 1, 2] : List Nat).length) 0) = true :=
  returned_rings_are_cycles triangleGraph (by decide) 0 3 [0, 1, 2]
    (Or.inl (by decide))

/-- C4: deduplication — the collection returned by `enum_sp_rings` has no
repeated entries, and two entries that are related by a rotation, a
reversal, or any combination of the two (`SameRing`) are equal: each
physical ring appears exactly once, in canonical form. -/
theorem enum_sp_rings_no_duplicate_orientations (g : BondGraph)
    (max_size : Nat) {p q : List Nat} (hp : p ∈ enum_sp_rings g max_size)
    (hq : q ∈ enum_sp_rings g max_size) (hpq : SameRing p q) :
    p = q ∧ (enum_sp_rings g max_size).Nodup := by
  obtain ⟨c, hc, hcp⟩ :=
    (mem_enum_sp_rings_from_iff g _ max_size p).mp hp
  obtain ⟨d, hd, hdq⟩ :=
    (mem_enum_sp_rings_from_iff g _ max_size q).mp hq
  have hcne : c ≠ [] := by
    intro h'
    have := isSPRingB_length (sp_ring_candidates_sp g _ max_size c hc)
    rw [h'] at this
    simp at this
  have hdne : d ≠ [] := by
    intro h'
    have := isSPRingB_length (sp_ring_candidates_sp g _ max_size d hd)
    rw [h'] at this
    simp at this
  have hpne : p ≠ [] := by rw [← hcp]; exact canonicalize_ne_nil hcne
  have hqne : q ≠ [] := by rw [← hdq]; exact canonicalize_ne_nil hdne
  have hpfix : canonicalize p = p := by rw [← hcp, canonicalize_idem hcne]
  have hqfix : canonicalize q = q := by rw [← hdq, canonicalize_idem hdne]
  refine ⟨?_, ?_⟩
  · calc p = canonicalize p := hpfix.symm
      _ = canonicalize q := canonicalize_eq_of_sameRing hpne hqne hpq
      _ = q := hqfix
  · exact ((List.perm_insertionSort _ _).nodup_iff).mpr (List.nodup_dedup _)

/-- Witness for C4: the canonical entry `[0, 1, 2]` of the triangle
enumeration is related to itself and equal to itself, and the enumeration
has no repeated entries. -/
theorem enum_sp_rings_no_duplicate_orientations_witness :
    ([0, 1, 2] : List Nat) = [0, 1, 2] ∧
      (enum_sp_rings triangleGraph 3).Nodup :=
  enum_sp_rings_no_duplicate_orientations triangleGraph 3 (by decide)
    (by decide) (Or.inl (List.IsRotated.refl _))

/-- C5: determinism — the enumeration is a pure function of the graph and
the bound; in particular the RingSet and the histogram it induces are
independent of the order in which roots are iterated (any permutation of
the root list yields identical results). -/
theorem enum_sp_rings_deterministic (g : BondGraph) (max_size : Nat)
    {roots roots' : List Nat} (h : roots.Perm roots') :
    enum_sp_rings_from g roots max_size =
        enum_sp_rings_from g roots' max_size ∧
      ∀ k, ring_histogram_from g roots max_size k =
        ring_histogram_from g roots' max_size k := by
  have h1 : (sp_ring_candidates g roots max_size).Perm
      (sp_ring_candidates g roots' max_size) := h.flatMap_right _
  have h2 := (h1.map canonicalize).dedup
  have heq : enum_sp_rings_from g roots max_size =
      enum_sp_rings_from g roots' max_size :=
    List.eq_of_perm_of_sorted
      ((List.perm_insertionSort _ _).trans
        (h2.trans (List.perm_insertionSort _ _).symm))
      (List.sorted_insertionSort _ _) (List.sorted_insertionSort _ _)
  exact ⟨heq, fun k => by unfold ring_histogram_from; rw [heq]⟩

/-- Witness for C5: enumerating the triangle graph with the roots in
reversed order yields the identical RingSet and histogram. -/
theorem enum_sp_rings_deterministic_witness :
    enum_sp_rings_from triangleGraph [0, 1, 2] 3 =
        enum_sp_rings_from triangleGraph [2, 1, 0] 3 ∧
      ∀ k, ring_histogram_from triangleGraph [0, 1, 2] 3 k =
        ring_histogram_from triangleGraph [2, 1, 0] 3 k :=
  enum_sp_rings_deterministic triangleGraph 3 (by decide)

/-- C6: distance symmetry — whenever the table returned by
`distances_on_graph` holds a finite distance for `(u, v)`, it holds the same
finite distance for `(v, u)`; and the entry for `(u, u)` is 0. -/
theorem distances_on_graph_symm (g : BondGraph) (hg : validB g = true)
    (maxd u v d : Nat) (h : distances_on_graph g maxd u v = some d) :
    distances_on_graph g maxd v u = some d ∧
      distances_on_graph g maxd u u = some 0 := by
  constructor
  · rw [distances_on_graph_eq_some_iff] at h ⊢
    obtain ⟨h1, h2, h3⟩ := h
    exact ⟨h1, reaches_symm g hg u v d h2,
      fun j hj hr => h3 j hj (reaches_symm g hg v u j hr)⟩
  · rw [distances_on_graph_eq_some_iff]
    exact ⟨Nat.zero_le _, rfl, fun j hj => absurd hj (Nat.not_lt_zero j)⟩

/-- Witness for C6: on the triangle graph, `d(0,1) = 1` gives `d(1,0) = 1`
and `d(0,0) = 0`. -/
theorem distances_on_graph_symm_witness :
    distances_on_graph triangleGraph 2 1 0 = some 1 ∧
      distances_on_graph triangleGraph 2 0 0 = some 0 :=
  distances_on_graph_symm triangleGraph (by decide) 2 0 1 1 (by decide)

/-- C7: triangle inequality — whenever the table returned by
`distances_on_graph` holds finite distances for `(u, v)`, `(v, w)` and
`(u, w)`, the last is at most the sum of the first two. -/
theorem distances_on_graph_triangle (g : BondGraph) (maxd u v w a b c : Nat)
    (h1 : distances_on_graph g maxd u v = some a)
    (h2 : distances_on_graph g maxd v w = some b)
    (h3 : distances_on_graph g maxd u w = some c) : c ≤ a + b := by
  rw [distances_on_graph_eq_some_iff] at h1 h2 h3
  by_contra hc
  push_neg at hc
  exact h3.2.2 (a + b) hc (Reaches.compose g u v w h1.2.1 h2.2.1)

/-- Witness for C7: on the path graph `0-1-2`, `d(0,2) = 2 ≤ d(0,1) +
d(1,2) = 1 + 1`. -/
theorem distances_on_graph_triangle_witness : (2 : Nat) ≤ 1 + 1 :=
  distances_on_graph_triangle pathGraph 3 0 1 2 1 1 2 (by decide) (by decide)
    (by decide)

/-- C8: unreachable encoding — for nodes in different connected components,
`distances_on_graph` reports the distinguished unreachable value (`none`),
never a finite distance, whatever the cutoff. -/
theorem distances_on_graph_unreachable (g : BondGraph) (u v : Nat)
    (h : ¬ InSameComponent g u v) (maxd : Nat) :
    distances_on_graph g maxd u v = none := by
  rw [distances_on_graph_eq_none_iff]
  intro j _ hr
  exact h ⟨j, hr⟩

/-- Witness for C8: in the two disjoint triangles, nodes 0 and 3 lie in
different components and their distance entry is the unreachable value. -/
theorem distances_on_graph_unreachable_witness :
    distances_on_graph twoTrianglesGraph 10 0 3 = none :=
  distances_on_graph_unreachable twoTrianglesGraph 0 3
    (fun ⟨n, hr⟩ =>
      absurd
        (reaches_mem_closed twoTrianglesGraph [0, 1, 2] (by decide) 0
          (by decide) n 3 hr)
        (by decide))
    10

/-- C9: input validation — an adjacency input containing an out-of-range,
self or duplicate edge is rejected: graph construction fails with
`InvalidGraph`, and each of the three boundary operations on such input
aborts with that error, producing no distance or ring result. -/
theorem malformed_input_rejected (n : Nat) (edges : List (Nat × Nat))
    (h : MalformedInput n edges) (maxd root max_size : Nat) :
    buildGraph n edges = Except.error GraphError.invalidGraph ∧
    distances_on_graph_checked n edges maxd =
        Except.error GraphError.invalidGraph ∧
    find_sp_rings_checked n edges root max_size =
        Except.error GraphError.invalidGraph ∧
    enum_sp_rings_checked n edges max_size =
        Except.error GraphError.invalidGraph := by
  have hv := validEdgeList_eq_false_of_malformed h
  have hb : buildGraph n edges = Except.error GraphError.invalidGraph := by
    simp [buildGraph, hv]
  exact ⟨hb, by simp [distances_on_graph_checked, hb, Except.map],
    by simp [find_sp_rings_checked, hb, Except.map],
    by simp [enum_sp_rings_checked, hb, Except.map]⟩

/-- Witness for C9: the duplicate edge list `[(0,1), (1,0)]` is rejected by
construction and by all three boundary operations. -/
theorem malformed_input_rejected_witness :
    buildGraph 3 [(0, 1), (1, 0)] = Except.error GraphError.invalidGraph ∧
    distances_on_graph_checked 3 [(0, 1), (1, 0)] 5 =
        Except.error GraphError.invalidGraph ∧
    find_sp_rings_checked 3 [(0, 1), (1, 0)] 0 4 =
        Except.error GraphError.invalidGraph ∧
    enum_sp_rings_checked 3 [(0, 1), (1, 0)] 4 =
        Except.error GraphError.invalidGraph :=
  malformed_input_rejected 3 [(0, 1), (1, 0)]
    (by unfold MalformedInput; decide) 5 0 4

/-- C10: square-with-diagonal scenario — with edges
`{0-1, 1-2, 2-3, 3-0, 0-2}` and bound 4, the diagonal makes `d(0,2) = 1`,
the size-4 ring `[0, 1, 2, 3]` is not returned, and the enumeration is
exactly the two size-3 SP rings `[0, 1, 2]` and `[0, 2, 3]`. -/
theorem square_diag_scenario :
    distances_on_graph squareDiagGraph 4 0 2 = some 1 ∧
    [0, 1, 2, 3] ∉ enum_sp_rings squareDiagGraph 4 ∧
    enum_sp_rings squareDiagGraph 4 = [[0, 1, 2], [0, 2, 3]] := by
  decide

end RingStat
